import Mathlib

/-!
Verification of the Bolt document store (src/Boltjs/bolt.js).

The file gives a shallow embedding of the query/update/aggregation engine of
`bolt.js`.  Every public operation of the library first reads the whole store
(`store.getAll()`, which IndexedDB returns in ascending primary-key order) and
then computes purely in memory, so each operation is embedded as a pure
function on the snapshot list of documents.  JavaScript numbers appearing in
the claims are integer-valued, so numbers are modelled as `Int`; `NaN` — which
is produced by `+` on `undefined` — is a separate constructor (it is a JS
number with `NaN !== NaN`, which `strictEq` reflects).
-/

namespace Bolt

/-- A primitive JavaScript value as stored in a document field.  `vUndef` is
the value of a missing property access (`doc[k]` with `k` absent). -/
inductive Value : Type
  | vNum (n : Int)
  | vStr (s : String)
  | vBool (b : Bool)
  | vNull
  | vUndef
  | vNaN
deriving DecidableEq, Repr

open Value

/-- A document: a JavaScript object, i.e. an ordered association list from
property names to values (property insertion order is observable in JS). -/
abbrev Doc := List (String × Value)

/-- `doc[k]`: first matching property, `undefined` when absent. -/
def dlookup : Doc → String → Value
  | [], _ => vUndef
  | (k, v) :: rest, key => if k = key then v else dlookup rest key

/-- JavaScript strict equality `===` on primitive values: same type and same
value; `NaN === x` is false for every `x`, including `NaN` itself. -/
def strictEq : Value → Value → Bool
  | vNum m, vNum n => m == n
  | vStr s, vStr t => s == t
  | vBool a, vBool b => a == b
  | vNull, vNull => true
  | vUndef, vUndef => true
  | _, _ => false

/-- JavaScript truthiness: `0`, `""`, `false`, `null`, `undefined`, `NaN`
are falsy, everything else truthy. -/
def truthy : Value → Bool
  | vNum n => n != 0
  | vStr s => s != ""
  | vBool b => b
  | _ => false

/-- `v || 0` as it appears in `bolt.js` (`doc[field] || 0`,
`grouped[key][field] || 0`). -/
def orZero (v : Value) : Value := if truthy v then v else vNum 0

/-- `String(v)` for a primitive value (also `ToPropertyKey`): used when a
value indexes an object, as in `grouped[key]`.  Integer-valued numbers print
in decimal (the claims never reach the exponent-form range). -/
def jsToString : Value → String
  | vNum n => toString n
  | vStr s => s
  | vBool b => if b then "true" else "false"
  | vNull => "null"
  | vUndef => "undefined"
  | vNaN => "NaN"

/-- `ToNumber` on a string: whitespace-trimmed; empty is `0`, an optional
sign followed by digits parses in decimal, anything else is `NaN` (`none`).
(The exotic forms — hex, decimals, exponents — never occur in the claims.) -/
def strToNum (s : String) : Option Int :=
  let t := s.trim
  if t = "" then some 0 else t.toInt?

/-- `ToNumber` on a primitive value; `none` stands for `NaN`. -/
def toNumber : Value → Option Int
  | vNum n => some n
  | vStr s => strToNum s
  | vBool b => some (if b then 1 else 0)
  | vNull => some 0
  | vUndef => none
  | vNaN => none

/-- Is the value a string?  (Drives the string-concatenation arm of `+`.) -/
def isStr : Value → Bool
  | vStr _ => true
  | _ => false

/-- JavaScript `+` on primitive values: if either operand is a string,
concatenate the `String(…)` forms; otherwise apply `ToNumber` to both and
add, `NaN` being absorbing. -/
def jsAdd (a b : Value) : Value :=
  if isStr a || isStr b then vStr (jsToString a ++ jsToString b)
  else
    match toNumber a, toNumber b with
    | some m, some n => vNum (m + n)
    | _, _ => vNaN

/-- A value appearing in a query object.  A literal primitive compares with
`===`; `obj` is an object-valued entry such as `{ $gte: 30 }`.  Document
values coming back from `getAll()` are structured clones, so they are never
reference-identical to a caller-supplied query object and `===` against an
`obj` entry is false. -/
inductive QVal
  | lit (v : Value)
  | obj (fields : List (String × Value))
deriving DecidableEq

/-- A query object: property name to query value. -/
abbrev Query := List (String × QVal)

/-- One comparison `doc[key] === query[key]` of the matcher. -/
def qvalEq (dv : Value) : QVal → Bool
  | QVal.lit v => strictEq dv v
  | QVal.obj _ => false

/-- The predicate matcher of `find`/`findOne`/`update`/`delete`/`sum` and of
the `$match` stage:
`Object.keys(query).every(key => doc[key] === query[key])`. -/
def docMatches (d : Doc) (q : Query) : Bool :=
  q.all (fun kv => qvalEq (dlookup d kv.1) kv.2)

/-- JavaScript property assignment `o[k] = v`: overwrite in place when the
key exists, append otherwise. -/
def setField : Doc → String → Value → Doc
  | [], k, v => [(k, v)]
  | (k', v') :: rest, k, v =>
    if k' = k then (k, v) :: rest else (k', v') :: setField rest k v

/-- The merge step of `update`: `{ ...doc, ...patch }` — the patch's
properties overwrite the document's, in patch order. -/
def mergeDoc (d p : Doc) : Doc :=
  p.foldl (fun acc kv => setField acc kv.1 kv.2) d

/-- A document's primary key `doc._id`. -/
def getId (d : Doc) : Value := dlookup d "_id"

/-- `find(query)`: filter the `getAll()` snapshot with the matcher,
preserving order. -/
def findStore (s : List Doc) (q : Query) : List Doc :=
  s.filter (fun d => docMatches d q)

/-- `store.put(doc)` on the object store (key path `_id`): replace the record
whose key equals `doc._id`, append the record when the key is new. -/
def putStore : List Doc → Doc → List Doc
  | [], d => [d]
  | x :: xs, d => if strictEq (getId x) (getId d) then d :: xs else x :: putStore xs d

/-- `update(filter, patch)`: compute the matched documents from the snapshot,
then `put` each `{ ...doc, ...patch }` back. -/
def updateStore (s : List Doc) (q : Query) (p : Doc) : List Doc :=
  (findStore s q).foldl (fun st d => putStore st (mergeDoc d p)) s

/-- `store.delete(id)`: remove the record stored under that key. -/
def delById (s : List Doc) (k : Value) : List Doc :=
  s.filter (fun d => !(strictEq (getId d) k))

/-- `delete(query)`: compute the matched documents from the snapshot, then
delete each matched `_id`. -/
def deleteStore (s : List Doc) (q : Query) : List Doc :=
  (findStore s q).foldl (fun st d => delById st (getId d)) s

/-- `sum(field, condition)`:
`getAll().filter(matcher).reduce((acc, doc) => acc + (doc[field] || 0), 0)`. -/
def sumOp (s : List Doc) (f : String) (q : Query) : Value :=
  (findStore s q).foldl (fun acc d => jsAdd acc (orZero (dlookup d f))) (vNum 0)

/-- The `$group` stage description: `stage.$group._id` names the grouping
field, `stage.$group.initial` seeds each accumulator document, and `accs`
lists the remaining keys of the `$group` object
(`Object.keys(stage.$group)` minus `_id` and `initial`), whose associated
values the code never reads. -/
structure GroupSpec where
  keyField : String
  ini : Doc
  accs : List String
deriving DecidableEq

/-- The string under which a document's group is stored: `grouped[key]`
coerces the grouping value with `ToPropertyKey`, i.e. `String(doc[keyField])`. -/
def keyStr (spec : GroupSpec) (d : Doc) : String :=
  jsToString (dlookup d spec.keyField)

/-- A fresh accumulator document `{ _id: key, ...initial }`. -/
def mkGroupInit (kv : Value) (ini : Doc) : Doc :=
  ini.foldl (fun g kv2 => setField g kv2.1 kv2.2) [("_id", kv)]

/-- Fold one document into an accumulator document: for every declared
accumulator field `f`, `g[f] = (g[f] || 0) + doc[f]`. -/
def accFields (accs : List String) (d : Doc) (g : Doc) : Doc :=
  accs.foldl (fun g2 f => setField g2 f (jsAdd (orZero (dlookup g2 f)) (dlookup d f))) g

/-- First-position association lookup in the `grouped` object. -/
def aLookup : List (String × Doc) → String → Option Doc
  | [], _ => none
  | (k, v) :: rest, κ => if k = κ then some v else aLookup rest κ

/-- Does the `grouped` object already have this key? -/
def hasKey (G : List (String × Doc)) (κ : String) : Bool :=
  G.any (fun e => e.1 == κ)

/-- Apply a function to the entry stored under a key. -/
def updAssoc (G : List (String × Doc)) (κ : String) (f : Doc → Doc) :
    List (String × Doc) :=
  G.map (fun e => if e.1 = κ then (e.1, f e.2) else e)

/-- Process one document of the working set through the `$group` body:
create the group's accumulator (under the key's string form) on first
encounter, then accumulate every declared field. -/
def groupStep (spec : GroupSpec) (G : List (String × Doc)) (d : Doc) :
    List (String × Doc) :=
  updAssoc
    (if hasKey G (keyStr spec d) then G
     else G ++ [(keyStr spec d, mkGroupInit (dlookup d spec.keyField) spec.ini)])
    (keyStr spec d) (accFields spec.accs d)

/-- Value of a digit string, most significant digit first. -/
def digitsValAux : Nat → List Char → Nat
  | acc, [] => acc
  | acc, c :: cs => digitsValAux (acc * 10 + (c.toNat - 48)) cs

/-- Parse a non-empty all-digit string in decimal (the behavior of
`String.toNat?`, restated structurally so that it computes by reduction). -/
def decDigits? (s : String) : Option Nat :=
  if !s.data.isEmpty && s.data.all Char.isDigit then some (digitsValAux 0 s.data)
  else none

/-- Is the string an array-index property key: the canonical decimal form of
an integer in `[0, 2^32 - 2]`?  Such keys enumerate first, in ascending
numeric order, in JavaScript own-property order. -/
def isArrayIndex (s : String) : Bool :=
  match decDigits? s with
  | some n => decide (toString n = s) && decide (n < 4294967295)
  | none => false

/-- Numeric value of an array-index key, used only to order such keys. -/
def keyNum (s : String) : Nat := (decDigits? s).getD 0

/-- Insert an entry into a list of array-index-keyed entries, keeping keys in
ascending numeric order. -/
def insertIdx (e : String × Doc) : List (String × Doc) → List (String × Doc)
  | [] => [e]
  | x :: xs => if keyNum e.1 ≤ keyNum x.1 then e :: x :: xs else x :: insertIdx e xs

/-- Sort entries by ascending numeric key (insertion sort). -/
def sortIdx : List (String × Doc) → List (String × Doc)
  | [] => []
  | x :: xs => insertIdx x (sortIdx xs)

/-- `Object.values(grouped)`: own-property order — array-index keys first in
ascending numeric order, then the remaining keys in insertion order. -/
def objectValues (G : List (String × Doc)) : List Doc :=
  (sortIdx (G.filter (fun e => isArrayIndex e.1)) ++
    G.filter (fun e => !isArrayIndex e.1)).map (fun e => e.2)

/-- The `$group` stage: fold the working set into the `grouped` object, then
replace the working set by `Object.values(grouped)`. -/
def groupStage (spec : GroupSpec) (ws : List Doc) : List Doc :=
  objectValues (ws.foldl (groupStep spec) [])

/-- A pipeline stage as dispatched by `aggregate`: a truthy `$match`, a
truthy `$group`, or anything else (which the `if`/`else if` chain ignores). -/
inductive Stage
  | smatch (q : Query)
  | sgrp (g : GroupSpec)
  | sother
deriving DecidableEq

/-- One iteration of `pipeline.forEach` over the working set. -/
def applyStage (ws : List Doc) : Stage → List Doc
  | Stage.smatch q => ws.filter (fun d => docMatches d q)
  | Stage.sgrp g => groupStage g ws
  | Stage.sother => ws

/-- `aggregate(pipeline)` over the `getAll()` snapshot. -/
def aggregate (s : List Doc) (pl : List Stage) : List Doc :=
  pl.foldl applyStage s

/-- The integer carried by a numeric value, `0` otherwise.  This is the
contribution the spec ascribes to a document field in `sum` and in group
accumulation ("missing/non-numeric treated as 0"). -/
def valNum : Value → Int
  | vNum n => n
  | _ => 0

/-- A value that the reducer of `sum` handles exactly as the spec says:
a number contributes itself, and a falsy value (which in particular covers a
missing field) contributes `0`. -/
def numOrFalsy : Value → Bool
  | vNum _ => true
  | v => !truthy v

/-- A query entry that is a literal primitive other than `undefined` — the
shape the spec's data model gives to queries (field name to literal value). -/
def qvalLit : QVal → Bool
  | QVal.lit v => v != vUndef
  | QVal.obj _ => false

/-- All entries of the query are literal primitives (no `undefined`). -/
def qLits (q : Query) : Bool :=
  q.all (fun kv => qvalLit kv.2)

/-- The accumulator document the `$group` body builds for one partition:
seed `{ _id: key, ...initial }` from the partition's first document, then
fold every document of the partition through the accumulator update. -/
def groupAcc (spec : GroupSpec) : List Doc → Option Doc
  | [] => none
  | first :: rest =>
    some ((first :: rest).foldl (fun g d => accFields spec.accs d g)
      (mkGroupInit (dlookup first spec.keyField) spec.ini))

/-- The distinct elements of a list, each at its first occurrence, in order:
the key insertion order of the `grouped` object. -/
def firstSeen (l : List String) : List String :=
  l.foldl (fun acc x => if x ∈ acc then acc else acc ++ [x]) []

/-- Insert a string into a list of array-index keys, keeping ascending
numeric order. -/
def insertStr (s : String) : List String → List String
  | [] => [s]
  | x :: xs => if keyNum s ≤ keyNum x then s :: x :: xs else x :: insertStr s xs

/-- Sort array-index keys in ascending numeric order. -/
def sortStr : List String → List String
  | [] => []
  | x :: xs => insertStr x (sortStr xs)

/-- JavaScript own-property order on a list of distinct keys: array-index
keys first, ascending numerically, then the rest in insertion order. -/
def jsKeyOrder (ks : List String) : List String :=
  sortStr (ks.filter isArrayIndex) ++ ks.filter (fun s => !isArrayIndex s)

/-- The numeric contribution of one partition to an accumulator field. -/
def partSum (part : List Doc) (f : String) : Int :=
  (part.map (fun d => valNum (dlookup d f))).sum

/-! ## Basic lemmas about the value model and documents -/

theorem strictEq_self (v : Value) (h : v ≠ vNaN) : strictEq v v = true := by
  cases v <;> simp [strictEq] at h ⊢

theorem strictEq_true_iff (v w : Value) (h : v ≠ vNaN) :
    strictEq v w = true ↔ v = w := by
  cases v <;> cases w <;> simp [strictEq] at h ⊢

theorem dlookup_setField_self (d : Doc) (k : String) (v : Value) :
    dlookup (setField d k v) k = v := by
  induction d with
  | nil => simp [setField, dlookup]
  | cons kv rest ih =>
    obtain ⟨k', v'⟩ := kv
    by_cases h : k' = k <;> simp [setField, dlookup, h, ih]

theorem dlookup_setField_ne (d : Doc) (k k' : String) (v : Value) (h : k' ≠ k) :
    dlookup (setField d k v) k' = dlookup d k' := by
  induction d with
  | nil => simp [setField, dlookup, Ne.symm h]
  | cons kv rest ih =>
    obtain ⟨k0, v0⟩ := kv
    by_cases h0 : k0 = k
    · subst h0
      simp [setField, dlookup, Ne.symm h]
    · simp only [setField, h0, if_false]
      by_cases h1 : k0 = k'
      · subst h1
        simp [dlookup]
      · simp [dlookup, h1, ih]

theorem dlookup_foldl_setField_notmem (ps : List (String × Value)) (d : Doc)
    (k : String) (h : k ∉ ps.map Prod.fst) :
    dlookup (ps.foldl (fun acc kv => setField acc kv.1 kv.2) d) k = dlookup d k := by
  induction ps generalizing d with
  | nil => rfl
  | cons kv rest ih =>
    simp only [List.map_cons, List.mem_cons, not_or] at h
    simp only [List.foldl_cons]
    rw [ih _ h.2, dlookup_setField_ne d kv.1 k kv.2 h.1]

theorem dlookup_notmem (d : Doc) (k : String) (h : k ∉ d.map Prod.fst) :
    dlookup d k = vUndef := by
  induction d with
  | nil => rfl
  | cons kv rest ih =>
    simp only [List.map_cons, List.mem_cons, not_or] at h
    simp [dlookup, Ne.symm h.1, ih h.2]

theorem orZero_num (n : Int) : orZero (vNum n) = vNum n := by
  by_cases h : n = 0 <;> simp [orZero, truthy, h]

theorem jsAdd_num (m n : Int) : jsAdd (vNum m) (vNum n) = vNum (m + n) := by
  simp [jsAdd, isStr, toNumber]

/-! ## C1: the `_id` of the merged document in `update` -/

/-- C1, counterexample: the claim "merge(D, P)._id equals D._id even when P
contains an `_id` field with a different value" is false on the code: the
spread `{ ...doc, ...update }` lets the patch overwrite `_id`.  With
`D = {_id: 1, a: 2}` and `P = {_id: 9}` the merged document has `_id = 9`,
not `1`. -/
theorem merge_id_cex :
    getId (mergeDoc [("_id", vNum 1), ("a", vNum 2)] [("_id", vNum 9)]) = vNum 9 ∧
    getId (mergeDoc [("_id", vNum 1), ("a", vNum 2)] [("_id", vNum 9)]) ≠
      getId [("_id", vNum 1), ("a", vNum 2)] := by
  decide

/-- C1, amended: the merge step of `update` preserves the original
document's `_id` exactly when the patch does not itself contain an `_id`
key; a patch `_id` overwrites the document's, like every other key. -/
theorem merge_id_preserved (d p : Doc) (h : "_id" ∉ p.map Prod.fst) :
    getId (mergeDoc d p) = getId d :=
  dlookup_foldl_setField_notmem p d "_id" h

/-- C1, witness for the amended theorem. -/
theorem merge_id_preserved_witness :
    getId (mergeDoc [("_id", vNum 1), ("a", vNum 2)] [("a", vNum 5)]) =
      getId [("_id", vNum 1), ("a", vNum 2)] :=
  merge_id_preserved [("_id", vNum 1), ("a", vNum 2)] [("a", vNum 5)] (by decide)

/-! ## C4: a `$match` stage whose query value is an operator object -/

/-- C4, counterexample: the claim "a match stage with an unrecognized
operator object passes the working set through unfiltered" is false: on the
working set `[{_id: 1, age: 30}]` the stage `{$match: {age: {$gte: 30}}}`
removes the document (the strict comparison `30 === {$gte: 30}` is false),
so the stage does not pass the document through. -/
theorem match_operator_cex :
    applyStage [[("_id", vNum 1), ("age", vNum 30)]]
        (Stage.smatch [("age", QVal.obj [("$gte", vNum 30)])]) = [] ∧
    ([[("_id", vNum 1), ("age", vNum 30)]] : List Doc) ≠ [] := by
  decide

/-- C4, amended: a `$match` stage whose query maps some field to an operator
object filters out every document — the outgoing working set is empty —
because no document value is strictly equal to a fresh object; a literal
`$match` filters by strict equality (the matcher of C6). -/
theorem match_operator_empties (ws : List Doc) (q : Query) (k : String)
    (fl : List (String × Value)) (h : (k, QVal.obj fl) ∈ q) :
    applyStage ws (Stage.smatch q) = [] := by
  simp only [applyStage]
  rw [List.filter_eq_nil_iff]
  intro d _
  simp only [Bool.not_eq_true]
  cases hm : docMatches d q with
  | false => rfl
  | true =>
    have := (List.all_eq_true.mp hm) (k, QVal.obj fl) h
    simp [qvalEq] at this

/-- C4, witness for the amended theorem. -/
theorem match_operator_empties_witness :
    applyStage [[("_id", vNum 1), ("age", vNum 30)], [("_id", vNum 2)]]
        (Stage.smatch [("age", QVal.obj [("$gte", vNum 30)])]) = [] :=
  match_operator_empties _ _ "age" [("$gte", vNum 30)] (by decide)

/-! ## C6: the predicate matcher -/

/-- C6: the matcher returns true iff every query entry compares strictly
equal to the document's value at that key; it is vacuously true on the empty
query; and, for queries of the spec's data model (literal primitive values,
no `undefined`), a field missing from the document fails its comparison, so
the match is false.  The matcher is a total function by construction (never
throws). -/
theorem matcher_spec (d : Doc) (q : Query) (hq : qLits q = true) :
    docMatches d [] = true ∧
    (docMatches d q = true ↔ ∀ kv ∈ q, qvalEq (dlookup d kv.1) kv.2 = true) ∧
    (∀ k v, (k, QVal.lit v) ∈ q → k ∉ d.map Prod.fst → docMatches d q = false) := by
  refine ⟨rfl, List.all_eq_true, ?_⟩
  intro k v hkv hmem
  cases hm : docMatches d q with
  | false => rfl
  | true =>
    have hcomp := (List.all_eq_true.mp hm) (k, QVal.lit v) hkv
    have hv := (List.all_eq_true.mp hq) (k, QVal.lit v) hkv
    rw [dlookup_notmem d k hmem] at hcomp
    simp only [qvalLit, bne_iff_ne, ne_eq] at hv
    simp only [qvalEq] at hcomp
    rw [strictEq_true_iff vUndef v (by simp)] at hcomp
    exact absurd hcomp.symm hv

/-- C6, witness. -/
theorem matcher_spec_witness :
    docMatches [("a", vNum 1)] [] = true ∧
    (docMatches [("a", vNum 1)] [("a", QVal.lit (vNum 1))] = true ↔
      ∀ kv ∈ [("a", QVal.lit (vNum 1))],
        qvalEq (dlookup [("a", vNum 1)] kv.1) kv.2 = true) ∧
    (∀ k v, (k, QVal.lit v) ∈ [("a", QVal.lit (vNum 1))] →
      k ∉ ([("a", vNum 1)] : Doc).map Prod.fst →
      docMatches [("a", vNum 1)] [("a", QVal.lit (vNum 1))] = false) :=
  matcher_spec [("a", vNum 1)] [("a", QVal.lit (vNum 1))] (by decide)

/-! ## C7: unrecognized stage tags are ignored -/

/-- C7: a pipeline stage whose tag is neither `$match` nor `$group` leaves
the working set unchanged, so a pipeline containing it computes the same
result as the pipeline with that stage removed. -/
theorem other_stage_ignored (s : List Doc) (a b : List Stage) :
    aggregate s (a ++ Stage.sother :: b) = aggregate s (a ++ b) := by
  simp [aggregate, List.foldl_append, applyStage]

/-! ## C3: `sum` -/

theorem jsAdd_orZero (a : Int) (v : Value) (h : numOrFalsy v = true) :
    jsAdd (vNum a) (orZero v) = vNum (a + valNum v) := by
  cases v with
  | vNum n => rw [orZero_num, jsAdd_num]; rfl
  | vStr s =>
    simp only [numOrFalsy, truthy, Bool.not_eq_true', bne_eq_false_iff_eq] at h
    subst h
    simp [orZero, truthy, jsAdd_num, valNum]
  | vBool b =>
    simp only [numOrFalsy, truthy, Bool.not_eq_true'] at h
    subst h
    simp [orZero, truthy, jsAdd_num, valNum]
  | vNull => simp [orZero, truthy, jsAdd_num, valNum]
  | vUndef => simp [orZero, truthy, jsAdd_num, valNum]
  | vNaN => simp [orZero, truthy, jsAdd_num, valNum]

theorem sum_fold (f : String) (l : List Doc) (a : Int)
    (h : ∀ d ∈ l, numOrFalsy (dlookup d f) = true) :
    l.foldl (fun acc d => jsAdd acc (orZero (dlookup d f))) (vNum a) =
      vNum (a + (l.map (fun d => valNum (dlookup d f))).sum) := by
  induction l generalizing a with
  | nil => simp
  | cons d l ih =>
    simp only [List.foldl_cons]
    rw [jsAdd_orZero a _ (h d (List.mem_cons_self d l))]
    rw [ih _ (fun d2 hd2 => h d2 (List.mem_cons_of_mem d hd2))]
    rw [List.map_cons, List.sum_cons, add_assoc]

/-- C3, counterexample: the claim "sum adds each matched document's value at
`f`, a missing or non-numeric value contributing 0" is false for a truthy
non-numeric value: on the store `[{_id: 1, f: true}]`, `sum("f", {})`
evaluates `0 + (true || 0)`, which is `0 + true = 1`, not the `0` the claim
demands. -/
theorem sum_nonnumeric_cex :
    sumOp [[("_id", vNum 1), ("f", vBool true)]] "f" [] = vNum 1 ∧
    sumOp [[("_id", vNum 1), ("f", vBool true)]] "f" [] ≠ vNum 0 := by
  decide

/-- C3, amended: `sum(f, Q)` filters the snapshot with the matcher and folds
`acc + (doc[f] || 0)`; a missing or otherwise falsy value contributes 0,
while a truthy non-numeric value is combined by JavaScript `+` coercion.
In particular, when every matched document's value at `f` is numeric or
falsy (which covers missing fields), the result is exactly the sum of the
numeric values, the rest contributing 0. -/
theorem sum_numeric (s : List Doc) (f : String) (q : Query)
    (h : ∀ d ∈ findStore s q, numOrFalsy (dlookup d f) = true) :
    sumOp s f q = vNum ((findStore s q).map (fun d => valNum (dlookup d f))).sum := by
  unfold sumOp
  rw [sum_fold f _ 0 h, zero_add]

/-- C3, witness: the spec's own scenario — ages 26, 30 and 35 sum to 91. -/
theorem sum_numeric_witness :
    sumOp [[("_id", vNum 1), ("age", vNum 26)], [("_id", vNum 2), ("age", vNum 30)],
        [("_id", vNum 3), ("age", vNum 35)]] "age" [] =
      vNum ((findStore [[("_id", vNum 1), ("age", vNum 26)],
        [("_id", vNum 2), ("age", vNum 30)], [("_id", vNum 3), ("age", vNum 35)]] []).map
          (fun d => valNum (dlookup d "age"))).sum :=
  sum_numeric _ "age" [] (by decide)

/-! ## C8: `delete(Q)` then `find(Q)` is empty -/

theorem filter_filter_bool {α : Type} (p q : α → Bool) (l : List α) :
    (l.filter q).filter p = l.filter (fun a => q a && p a) := by
  induction l with
  | nil => rfl
  | cons x l ih =>
    by_cases hq : q x <;> by_cases hp : p x <;>
      simp [List.filter_cons, hq, hp, ih]

theorem foldl_delById (l st : List Doc) :
    l.foldl (fun st2 d => delById st2 (getId d)) st =
      st.filter (fun e => l.all (fun d => !(strictEq (getId e) (getId d)))) := by
  induction l generalizing st with
  | nil => simp
  | cons d l ih =>
    simp only [List.foldl_cons]
    rw [ih]
    unfold delById
    rw [filter_filter_bool]
    simp only [List.all_cons]

/-- C8: deleting every document matched by `Q` and then running `find(Q)`
returns the empty list.  (The hypothesis that no stored `_id` is `NaN` is an
invariant of the storage engine: `NaN` is not a valid IndexedDB key, and the
adapter assigns numeric auto-increment keys.) -/
theorem delete_then_find (s : List Doc) (q : Query) (h : ∀ d ∈ s, getId d ≠ vNaN) :
    findStore (deleteStore s q) q = [] := by
  unfold deleteStore
  rw [foldl_delById]
  unfold findStore
  rw [filter_filter_bool, List.filter_eq_nil_iff]
  intro e he hpred
  rw [Bool.and_eq_true] at hpred
  obtain ⟨hall, hm⟩ := hpred
  have hmem : e ∈ s.filter (fun d => docMatches d q) := List.mem_filter.mpr ⟨he, hm⟩
  have hfalse := List.all_eq_true.mp hall e hmem
  rw [strictEq_self (getId e) (h e he)] at hfalse
  simp at hfalse

/-- C8, witness. -/
theorem delete_then_find_witness :
    findStore (deleteStore [[("_id", vNum 1), ("age", vNum 35)],
        [("_id", vNum 2), ("age", vNum 30)]] [("age", QVal.lit (vNum 35))])
      [("age", QVal.lit (vNum 35))] = [] :=
  delete_then_find _ [("age", QVal.lit (vNum 35))] (by decide)

/-! ## C9: idempotence of `update` -/

theorem getId_mergeDoc (d p : Doc) (h : "_id" ∉ p.map Prod.fst) :
    getId (mergeDoc d p) = getId d :=
  dlookup_foldl_setField_notmem p d "_id" h

theorem foldl_putStore_cons (x : Doc) (st l : List Doc)
    (h : ∀ v ∈ l, strictEq (getId x) (getId v) = false) :
    l.foldl putStore (x :: st) = x :: l.foldl putStore st := by
  induction l generalizing st with
  | nil => rfl
  | cons v l ih =>
    simp only [List.foldl_cons]
    have hv := h v (List.mem_cons_self v l)
    rw [show putStore (x :: st) v = x :: putStore st v from by simp [putStore, hv]]
    exact ih _ (fun w hw => h w (List.mem_cons_of_mem v hw))

theorem updateStore_eq_map (q : Query) (p : Doc) (hid : "_id" ∉ p.map Prod.fst) :
    ∀ s : List Doc, (s.map getId).Nodup → (∀ d ∈ s, getId d ≠ vNaN) →
      updateStore s q p = s.map (fun e => if docMatches e q then mergeDoc e p else e) := by
  intro s
  induction s with
  | nil => intro _ _; rfl
  | cons e rest ih =>
    intro hnd hnan
    rw [List.map_cons, List.nodup_cons] at hnd
    obtain ⟨hne, hndr⟩ := hnd
    have hENaN : getId e ≠ vNaN := hnan e (List.mem_cons_self e rest)
    have hnanr : ∀ d ∈ rest, getId d ≠ vNaN := fun d hd => hnan d (List.mem_cons_of_mem e hd)
    have hskip : ∀ v ∈ (findStore rest q).map (fun d => mergeDoc d p),
        strictEq (getId e) (getId v) = false := by
      intro v hv
      obtain ⟨d, hd, rfl⟩ := List.mem_map.mp hv
      rw [getId_mergeDoc d p hid]
      have hdrest : d ∈ rest := List.mem_of_mem_filter hd
      have hneq : getId e ≠ getId d := by
        intro hEq
        exact hne (hEq ▸ List.mem_map_of_mem getId hdrest)
      cases hEq2 : strictEq (getId e) (getId d) with
      | false => rfl
      | true => exact absurd ((strictEq_true_iff _ _ hENaN).mp hEq2) hneq
    have hconv : ∀ st : List Doc,
        (findStore rest q).foldl (fun st2 d => putStore st2 (mergeDoc d p)) st
          = ((findStore rest q).map (fun d => mergeDoc d p)).foldl putStore st := by
      intro st
      rw [List.foldl_map]
    unfold updateStore
    rw [show findStore (e :: rest) q
        = if docMatches e q then e :: findStore rest q else findStore rest q from by
      simp [findStore, List.filter_cons]]
    by_cases hm : docMatches e q
    · rw [if_pos hm, List.foldl_cons]
      rw [show putStore (e :: rest) (mergeDoc e p) = mergeDoc e p :: rest from by
        simp [putStore, getId_mergeDoc e p hid, strictEq_self _ hENaN]]
      rw [hconv (mergeDoc e p :: rest)]
      rw [foldl_putStore_cons (mergeDoc e p) rest _ (by
        intro v hv
        rw [getId_mergeDoc e p hid]
        exact hskip v hv)]
      rw [← hconv rest]
      rw [show (findStore rest q).foldl (fun st2 d => putStore st2 (mergeDoc d p)) rest
          = updateStore rest q p from rfl]
      rw [ih hndr hnanr, List.map_cons, if_pos hm]
    · rw [if_neg hm]
      rw [hconv (e :: rest), foldl_putStore_cons e rest _ hskip, ← hconv rest]
      rw [show (findStore rest q).foldl (fun st2 d => putStore st2 (mergeDoc d p)) rest
          = updateStore rest q p from rfl]
      rw [ih hndr hnanr, List.map_cons, if_neg hm]

theorem keys_setField_self (d : Doc) (k : String) (v : Value) :
    k ∈ (setField d k v).map Prod.fst := by
  induction d with
  | nil => simp [setField]
  | cons kv rest ih =>
    obtain ⟨k0, v0⟩ := kv
    by_cases h : k0 = k <;> simp [setField, h, ih]

theorem keys_setField_incl (d : Doc) (k k0 : String) (v : Value)
    (h : k0 ∈ d.map Prod.fst) : k0 ∈ (setField d k v).map Prod.fst := by
  induction d with
  | nil => simp at h
  | cons kv rest ih =>
    obtain ⟨k1, v1⟩ := kv
    simp only [List.map_cons, List.mem_cons] at h
    by_cases h1 : k1 = k
    · subst h1
      rw [show setField ((k1, v1) :: rest) k1 v = (k1, v) :: rest from by simp [setField]]
      simpa using h
    · simp only [setField, if_neg h1, List.map_cons, List.mem_cons]
      rcases h with h | h
      · exact Or.inl h
      · exact Or.inr (ih h)

theorem keys_foldl_setField_incl (ps : List (String × Value)) (g : Doc) (k : String)
    (h : k ∈ g.map Prod.fst) :
    k ∈ (ps.foldl (fun acc kv => setField acc kv.1 kv.2) g).map Prod.fst := by
  induction ps generalizing g with
  | nil => exact h
  | cons kv rest ih => exact ih _ (keys_setField_incl g kv.1 k kv.2 h)

theorem keys_mergeDoc_of_mem (d p : Doc) (k : String) (v : Value) (h : (k, v) ∈ p) :
    k ∈ (mergeDoc d p).map Prod.fst := by
  induction p generalizing d with
  | nil => cases h
  | cons kv tl ih =>
    rcases List.mem_cons.mp h with heq | htl
    · rw [← heq]
      exact keys_foldl_setField_incl tl (setField d k v) k (keys_setField_self d k v)
    · exact ih (setField d kv.1 kv.2) htl

theorem dlookup_mergeDoc_mem (d p : Doc) (k : String) (v : Value)
    (hnd : (p.map Prod.fst).Nodup) (h : (k, v) ∈ p) :
    dlookup (mergeDoc d p) k = v := by
  induction p generalizing d with
  | nil => cases h
  | cons kv tl ih =>
    rw [List.map_cons, List.nodup_cons] at hnd
    obtain ⟨hk, hndtl⟩ := hnd
    rcases List.mem_cons.mp h with heq | htl
    · rw [← heq] at hk ⊢
      have : dlookup (tl.foldl (fun acc kv2 => setField acc kv2.1 kv2.2) (setField d k v)) k
          = dlookup (setField d k v) k := dlookup_foldl_setField_notmem tl _ k hk
      rw [show mergeDoc d ((k, v) :: tl)
          = tl.foldl (fun acc kv2 => setField acc kv2.1 kv2.2) (setField d k v) from rfl]
      rw [this, dlookup_setField_self]
    · exact ih (setField d kv.1 kv.2) hndtl htl

theorem setField_self_eq (d : Doc) (k : String) (v : Value)
    (hmem : k ∈ d.map Prod.fst) (hval : dlookup d k = v) :
    setField d k v = d := by
  induction d with
  | nil => simp at hmem
  | cons kv rest ih =>
    obtain ⟨k0, v0⟩ := kv
    by_cases h : k0 = k
    · subst h
      have hval2 : v0 = v := by simpa [dlookup] using hval
      simp [setField, hval2]
    · simp only [List.map_cons, List.mem_cons] at hmem
      rcases hmem with hmem | hmem
      · exact absurd hmem.symm h
      · simp only [dlookup, if_neg h] at hval
        simp [setField, h, ih hmem hval]

theorem foldl_setField_fix (ps : List (String × Value)) (X : Doc)
    (h : ∀ kv ∈ ps, kv.1 ∈ X.map Prod.fst ∧ dlookup X kv.1 = kv.2) :
    ps.foldl (fun acc kv => setField acc kv.1 kv.2) X = X := by
  induction ps with
  | nil => rfl
  | cons kv tl ih =>
    simp only [List.foldl_cons]
    have h0 := h kv (List.mem_cons_self kv tl)
    rw [setField_self_eq X kv.1 kv.2 h0.1 h0.2]
    exact ih (fun kv2 h2 => h kv2 (List.mem_cons_of_mem kv h2))

theorem mergeDoc_idem (d p : Doc) (hnd : (p.map Prod.fst).Nodup) :
    mergeDoc (mergeDoc d p) p = mergeDoc d p := by
  apply foldl_setField_fix
  intro kv hkv
  obtain ⟨k, v⟩ := kv
  exact ⟨keys_mergeDoc_of_mem d p k v hkv, dlookup_mergeDoc_mem d p k v hnd hkv⟩

/-- C9, counterexample: with two matched documents and a patch containing an
`_id` that collides with one of them, running `update(Q, P)` twice differs
from running it once.  Store `[{_id:1, x:1, name:"A"}, {_id:2, x:1,
name:"B"}]`, query `{x: 1}`, patch `{_id: 2, x: 9}`: one update leaves the
record with key 2 holding `name:"B"`, a second update overwrites it with
`name:"A"`. -/
theorem update_idem_cex :
    updateStore (updateStore
        [[("_id", vNum 1), ("x", vNum 1), ("name", vStr "A")],
          [("_id", vNum 2), ("x", vNum 1), ("name", vStr "B")]]
        [("x", QVal.lit (vNum 1))] [("_id", vNum 2), ("x", vNum 9)])
      [("x", QVal.lit (vNum 1))] [("_id", vNum 2), ("x", vNum 9)] ≠
    updateStore
      [[("_id", vNum 1), ("x", vNum 1), ("name", vStr "A")],
        [("_id", vNum 2), ("x", vNum 1), ("name", vStr "B")]]
      [("x", QVal.lit (vNum 1))] [("_id", vNum 2), ("x", vNum 9)] := by
  decide

/-- C9, amended: `update(Q, P)` is idempotent for a constant patch `P` that
does not contain an `_id` key (a patch `_id` redirects writes to that key
and breaks idempotence, see the counterexample).  The remaining hypotheses
are storage-adapter invariants: stored `_id`s are distinct valid keys (never
`NaN`), and `P` is a JavaScript object, so its keys are distinct. -/
theorem update_idempotent (s : List Doc) (q : Query) (p : Doc)
    (hid : "_id" ∉ p.map Prod.fst) (hp : (p.map Prod.fst).Nodup)
    (hnd : (s.map getId).Nodup) (hnan : ∀ d ∈ s, getId d ≠ vNaN) :
    updateStore (updateStore s q p) q p = updateStore s q p := by
  have h1 := updateStore_eq_map q p hid s hnd hnan
  have hpt : ∀ e ∈ s, getId (if docMatches e q then mergeDoc e p else e) = getId e := by
    intro e _
    by_cases hm : docMatches e q
    · rw [if_pos hm, getId_mergeDoc e p hid]
    · rw [if_neg hm]
  have hids : (updateStore s q p).map getId = s.map getId := by
    rw [h1, List.map_map]
    exact List.map_congr_left hpt
  have hnd2 : ((updateStore s q p).map getId).Nodup := by
    rw [hids]
    exact hnd
  have hnan2 : ∀ d ∈ updateStore s q p, getId d ≠ vNaN := by
    intro d hd
    rw [h1] at hd
    obtain ⟨e, he, rfl⟩ := List.mem_map.mp hd
    rw [hpt e he]
    exact hnan e he
  rw [updateStore_eq_map q p hid (updateStore s q p) hnd2 hnan2]
  have hfix : ∀ x ∈ updateStore s q p,
      (if docMatches x q then mergeDoc x p else x) = x := by
    intro x hx
    by_cases hm : docMatches x q
    · rw [if_pos hm]
      rw [h1] at hx
      obtain ⟨e, he, rfl⟩ := List.mem_map.mp hx
      by_cases hme : docMatches e q
      · rw [if_pos hme] at hm ⊢
        exact mergeDoc_idem e p hp
      · rw [if_neg hme] at hm
        exact absurd hm hme
    · exact if_neg hm
  rw [List.map_congr_left hfix]
  simp

/-- C9, witness for the amended theorem. -/
theorem update_idempotent_witness :
    updateStore (updateStore [[("_id", vNum 1), ("x", vNum 1)]]
        [("x", QVal.lit (vNum 1))] [("x", vNum 2)])
      [("x", QVal.lit (vNum 1))] [("x", vNum 2)] =
    updateStore [[("_id", vNum 1), ("x", vNum 1)]]
      [("x", QVal.lit (vNum 1))] [("x", vNum 2)] :=
  update_idempotent [[("_id", vNum 1), ("x", vNum 1)]] [("x", QVal.lit (vNum 1))]
    [("x", vNum 2)] (by decide) (by decide) (by decide) (by decide)

/-! ## The `grouped` object of the `$group` stage -/

theorem aLookup_updAssoc (G : List (String × Doc)) (κ κ0 : String) (f : Doc → Doc) :
    aLookup (updAssoc G κ f) κ0 =
      if κ = κ0 then (aLookup G κ0).map f else aLookup G κ0 := by
  induction G with
  | nil =>
    by_cases h : κ = κ0 <;> simp [updAssoc, aLookup, h]
  | cons e G ih =>
    obtain ⟨k, g⟩ := e
    show aLookup ((if k = κ then (k, f g) else (k, g)) :: updAssoc G κ f) κ0 =
      if κ = κ0 then (aLookup ((k, g) :: G) κ0).map f else aLookup ((k, g) :: G) κ0
    by_cases hk : k = κ
    · subst hk
      rw [if_pos rfl]
      by_cases h1 : k = κ0
      · subst h1
        simp [aLookup]
      · simp [aLookup, h1, ih]
    · rw [if_neg hk]
      by_cases h1 : k = κ0
      · subst h1
        have h2 : ¬κ = k := fun h => hk h.symm
        simp [aLookup, h2]
      · by_cases h2 : κ = κ0
        · subst h2
          simp [aLookup, h1, ih]
        · simp [aLookup, h1, h2, ih]

theorem aLookup_append_of_none (G : List (String × Doc)) (e : String × Doc)
    (κ0 : String) (h : aLookup G κ0 = none) :
    aLookup (G ++ [e]) κ0 = if e.1 = κ0 then some e.2 else none := by
  induction G with
  | nil => simp [aLookup]
  | cons x G ih =>
    obtain ⟨k, g⟩ := x
    by_cases hk : k = κ0
    · simp [aLookup, hk] at h
    · simp only [List.cons_append, aLookup, if_neg hk] at h ⊢
      exact ih h

theorem aLookup_append_of_some (G : List (String × Doc)) (e : String × Doc)
    (κ0 : String) (g : Doc) (h : aLookup G κ0 = some g) :
    aLookup (G ++ [e]) κ0 = some g := by
  induction G with
  | nil => simp [aLookup] at h
  | cons x G ih =>
    obtain ⟨k, g0⟩ := x
    by_cases hk : k = κ0
    · simp only [aLookup, if_pos hk] at h ⊢
      exact h
    · simp only [aLookup, if_neg hk] at h ⊢
      exact ih h

theorem hasKey_isSome (G : List (String × Doc)) (κ : String) :
    hasKey G κ = (aLookup G κ).isSome := by
  induction G with
  | nil => rfl
  | cons e G ih =>
    obtain ⟨k, g⟩ := e
    by_cases hk : k = κ <;> simp [hasKey, aLookup, List.any_cons, hk, ← ih]

theorem groupStep_lookup (spec : GroupSpec) (G : List (String × Doc)) (d : Doc)
    (κ0 : String) :
    aLookup (groupStep spec G d) κ0 =
      if keyStr spec d = κ0 then
        some (accFields spec.accs d
          ((aLookup G κ0).getD (mkGroupInit (dlookup d spec.keyField) spec.ini)))
      else aLookup G κ0 := by
  unfold groupStep
  rw [aLookup_updAssoc]
  by_cases hk : keyStr spec d = κ0
  · rw [if_pos hk, if_pos hk]
    cases hs : aLookup G κ0 with
    | some g =>
      have : hasKey G (keyStr spec d) = true := by
        rw [hasKey_isSome, hk, hs]
        rfl
      rw [if_pos this, hs]
      rfl
    | none =>
      have : hasKey G (keyStr spec d) = false := by
        rw [hasKey_isSome, hk, hs]
        rfl
      rw [if_neg (by rw [this]; exact Bool.false_ne_true)]
      rw [aLookup_append_of_none G _ κ0 hs]
      rw [if_pos hk]
      rfl
  · rw [if_neg hk, if_neg hk]
    by_cases hh : hasKey G (keyStr spec d) = true
    · rw [if_pos hh]
    · rw [if_neg hh]
      cases hs : aLookup G κ0 with
      | some g => exact aLookup_append_of_some G _ κ0 g hs
      | none =>
        rw [aLookup_append_of_none G _ κ0 hs]
        exact if_neg hk

theorem group_fold_lookup (spec : GroupSpec) (ws : List Doc) (κ0 : String) :
    aLookup (ws.foldl (groupStep spec) []) κ0 =
      groupAcc spec (ws.filter (fun d => keyStr spec d == κ0)) := by
  induction ws using List.reverseRecOn with
  | nil => rfl
  | append_singleton ws d ih =>
    rw [List.foldl_append, List.foldl_cons, List.foldl_nil]
    rw [groupStep_lookup, List.filter_append]
    by_cases hk : keyStr spec d = κ0
    · rw [if_pos hk]
      rw [show List.filter (fun d2 => keyStr spec d2 == κ0) [d] = [d] from by
        simp [List.filter_cons, hk]]
      rw [ih]
      cases hF : ws.filter (fun d2 => keyStr spec d2 == κ0) with
      | nil =>
        simp only [List.nil_append]
        rfl
      | cons first rest =>
        show some (accFields spec.accs d ((first :: rest).foldl
            (fun g d2 => accFields spec.accs d2 g)
            (mkGroupInit (dlookup first spec.keyField) spec.ini)))
          = groupAcc spec (first :: (rest ++ [d]))
        rw [show groupAcc spec (first :: (rest ++ [d]))
            = some (((first :: rest) ++ [d]).foldl (fun g d2 => accFields spec.accs d2 g)
              (mkGroupInit (dlookup first spec.keyField) spec.ini)) from rfl]
        rw [List.foldl_append]
        rfl
    · rw [if_neg hk]
      rw [show List.filter (fun d2 => keyStr spec d2 == κ0) [d] = [] from by
        simp [List.filter_cons, hk]]
      rw [List.append_nil]
      exact ih

theorem keys_updAssoc (G : List (String × Doc)) (κ : String) (f : Doc → Doc) :
    (updAssoc G κ f).map Prod.fst = G.map Prod.fst := by
  induction G with
  | nil => rfl
  | cons e G ih =>
    obtain ⟨k, g⟩ := e
    show ((if k = κ then (k, f g) else (k, g)) :: updAssoc G κ f).map Prod.fst
      = ((k, g) :: G).map Prod.fst
    by_cases hk : k = κ
    · rw [if_pos hk]
      simp only [List.map_cons, ih]
    · rw [if_neg hk]
      simp only [List.map_cons, ih]

theorem hasKey_mem (G : List (String × Doc)) (κ : String) :
    hasKey G κ = true ↔ κ ∈ G.map Prod.fst := by
  simp [hasKey, List.any_eq_true]

theorem keys_groupStep (spec : GroupSpec) (G : List (String × Doc)) (d : Doc) :
    (groupStep spec G d).map Prod.fst =
      if keyStr spec d ∈ G.map Prod.fst then G.map Prod.fst
      else G.map Prod.fst ++ [keyStr spec d] := by
  unfold groupStep
  rw [keys_updAssoc]
  by_cases h : hasKey G (keyStr spec d) = true
  · rw [if_pos h, if_pos ((hasKey_mem G _).mp h)]
  · rw [if_neg h, if_neg (fun hm => h ((hasKey_mem G _).mpr hm))]
    simp

theorem keys_group_fold (spec : GroupSpec) (ws : List Doc) :
    (ws.foldl (groupStep spec) []).map Prod.fst = firstSeen (ws.map (keyStr spec)) := by
  induction ws using List.reverseRecOn with
  | nil => rfl
  | append_singleton ws d ih =>
    rw [List.foldl_append, List.foldl_cons, List.foldl_nil, keys_groupStep, ih]
    rw [show firstSeen ((ws ++ [d]).map (keyStr spec))
        = if keyStr spec d ∈ firstSeen (ws.map (keyStr spec))
          then firstSeen (ws.map (keyStr spec))
          else firstSeen (ws.map (keyStr spec)) ++ [keyStr spec d] from by
      simp [firstSeen, List.foldl_append]]

theorem firstSeen_fold_nodup (l acc : List String) (h : acc.Nodup) :
    (l.foldl (fun acc2 x => if x ∈ acc2 then acc2 else acc2 ++ [x]) acc).Nodup := by
  induction l generalizing acc with
  | nil => exact h
  | cons x l ih =>
    simp only [List.foldl_cons]
    by_cases hx : x ∈ acc
    · rw [if_pos hx]
      exact ih acc h
    · rw [if_neg hx]
      refine ih _ ?_
      simp [List.nodup_append, h, hx]

theorem firstSeen_nodup (l : List String) : (firstSeen l).Nodup :=
  firstSeen_fold_nodup l [] (by simp)

theorem firstSeen_fold_mem (l acc : List String) (x : String) :
    x ∈ l.foldl (fun acc2 y => if y ∈ acc2 then acc2 else acc2 ++ [y]) acc ↔
      x ∈ acc ∨ x ∈ l := by
  induction l generalizing acc with
  | nil => simp
  | cons y l ih =>
    simp only [List.foldl_cons]
    by_cases hy : y ∈ acc
    · rw [if_pos hy, ih]
      constructor
      · rintro (h | h)
        · exact Or.inl h
        · exact Or.inr (List.mem_cons_of_mem y h)
      · rintro (h | h)
        · exact Or.inl h
        · rcases List.mem_cons.mp h with rfl | h
          · exact Or.inl hy
          · exact Or.inr h
    · rw [if_neg hy, ih]
      simp only [List.mem_append, List.mem_singleton, List.mem_cons]
      tauto

theorem mem_firstSeen (l : List String) (x : String) :
    x ∈ firstSeen l ↔ x ∈ l := by
  rw [firstSeen, firstSeen_fold_mem]
  simp

theorem aLookup_mem (G : List (String × Doc)) (κ : String) (g : Doc)
    (h : aLookup G κ = some g) : (κ, g) ∈ G := by
  induction G with
  | nil => cases h
  | cons e G ih =>
    obtain ⟨k, g0⟩ := e
    by_cases hk : k = κ
    · subst hk
      have h2 : g0 = g := by simpa [aLookup] using h
      subst h2
      exact List.mem_cons_self _ _
    · simp only [aLookup, if_neg hk] at h
      exact List.mem_cons_of_mem _ (ih h)

theorem aLookup_of_mem_nodup (G : List (String × Doc)) (κ : String) (g : Doc)
    (hnd : (G.map Prod.fst).Nodup) (h : (κ, g) ∈ G) : aLookup G κ = some g := by
  induction G with
  | nil => cases h
  | cons e G ih =>
    obtain ⟨k, g0⟩ := e
    rw [List.map_cons, List.nodup_cons] at hnd
    obtain ⟨hk, hndr⟩ := hnd
    rcases List.mem_cons.mp h with heq | hrest
    · injection heq with h1 h2
      subst h1
      subst h2
      simp [aLookup]
    · have hkr : κ ∈ G.map Prod.fst :=
        List.mem_map_of_mem Prod.fst hrest
      have hne : ¬k = κ := fun hEq => hk (hEq ▸ hkr)
      simp only [aLookup, if_neg hne]
      exact ih hndr hrest

theorem mem_insertIdx (e x : String × Doc) (l : List (String × Doc)) :
    x ∈ insertIdx e l ↔ x = e ∨ x ∈ l := by
  induction l with
  | nil => simp [insertIdx]
  | cons y l ih =>
    unfold insertIdx
    by_cases h : keyNum e.1 ≤ keyNum y.1
    · rw [if_pos h]
      simp [List.mem_cons]
    · rw [if_neg h]
      simp only [List.mem_cons, ih]
      tauto

theorem mem_sortIdx (x : String × Doc) (l : List (String × Doc)) :
    x ∈ sortIdx l ↔ x ∈ l := by
  induction l with
  | nil => simp [sortIdx]
  | cons y l ih =>
    unfold sortIdx
    rw [mem_insertIdx, ih, List.mem_cons]

theorem mem_objectValues_of_mem (G : List (String × Doc)) (κ : String) (g : Doc)
    (h : (κ, g) ∈ G) : g ∈ objectValues G := by
  unfold objectValues
  rw [List.map_append, List.mem_append]
  by_cases hidx : isArrayIndex κ = true
  · left
    have h1 : (κ, g) ∈ List.filter (fun e => isArrayIndex e.1) G :=
      List.mem_filter.mpr ⟨h, hidx⟩
    exact List.mem_map.mpr ⟨(κ, g), (mem_sortIdx _ _).mpr h1, rfl⟩
  · right
    have h1 : (κ, g) ∈ List.filter (fun e => !isArrayIndex e.1) G :=
      List.mem_filter.mpr ⟨h, by simp [hidx]⟩
    exact List.mem_map.mpr ⟨(κ, g), h1, rfl⟩

theorem mem_objectValues (G : List (String × Doc)) (g : Doc)
    (h : g ∈ objectValues G) : ∃ κ, (κ, g) ∈ G := by
  unfold objectValues at h
  rw [List.map_append, List.mem_append] at h
  rcases h with h | h
  · obtain ⟨e, he, rfl⟩ := List.mem_map.mp h
    rw [mem_sortIdx] at he
    exact ⟨e.1, List.mem_of_mem_filter he⟩
  · obtain ⟨e, he, rfl⟩ := List.mem_map.mp h
    exact ⟨e.1, List.mem_of_mem_filter he⟩

theorem map_fst_insertIdx (e : String × Doc) (l : List (String × Doc)) :
    (insertIdx e l).map Prod.fst = insertStr e.1 (l.map Prod.fst) := by
  induction l with
  | nil => rfl
  | cons y l ih =>
    unfold insertIdx insertStr
    by_cases h : keyNum e.1 ≤ keyNum y.1
    · rw [if_pos h]
      simp only [List.map_cons]
      rw [if_pos h]
    · rw [if_neg h]
      simp only [List.map_cons]
      rw [if_neg h, ih]

theorem map_fst_sortIdx (l : List (String × Doc)) :
    (sortIdx l).map Prod.fst = sortStr (l.map Prod.fst) := by
  induction l with
  | nil => rfl
  | cons y l ih =>
    show (insertIdx y (sortIdx l)).map Prod.fst = sortStr (y.1 :: l.map Prod.fst)
    rw [map_fst_insertIdx, ih]
    rfl

theorem map_fst_filter (p : String → Bool) (G : List (String × Doc)) :
    (G.filter (fun e => p e.1)).map Prod.fst = (G.map Prod.fst).filter p := by
  induction G with
  | nil => rfl
  | cons e G ih =>
    obtain ⟨k, g⟩ := e
    by_cases h : p k <;> simp [List.filter_cons, h, ih]

/-! ## Accumulator field values in the `$group` stage -/

theorem dlookup_accFields_notmem (accs : List String) (d : Doc) (f : String) :
    ∀ g : Doc, f ∉ accs → dlookup (accFields accs d g) f = dlookup g f := by
  induction accs with
  | nil => intro g _; rfl
  | cons a rest ih =>
    intro g h
    simp only [List.mem_cons, not_or] at h
    show dlookup (accFields rest d
      (setField g a (jsAdd (orZero (dlookup g a)) (dlookup d a)))) f = dlookup g f
    rw [ih _ h.2]
    exact dlookup_setField_ne g a f _ h.1

theorem dlookup_accFields_mem (accs : List String) (d : Doc) (f : String) (n : Int)
    (hd : dlookup d f = vNum n) :
    ∀ (g : Doc) (a : Int), f ∈ accs → accs.Nodup → orZero (dlookup g f) = vNum a →
      dlookup (accFields accs d g) f = vNum (a + n) := by
  induction accs with
  | nil =>
    intro g a hmem _ _
    cases hmem
  | cons a0 rest ih =>
    intro g a hmem hnd hg
    rw [List.nodup_cons] at hnd
    obtain ⟨ha0, hndr⟩ := hnd
    show dlookup (accFields rest d
      (setField g a0 (jsAdd (orZero (dlookup g a0)) (dlookup d a0)))) f = vNum (a + n)
    rcases List.mem_cons.mp hmem with heq | hrest
    · subst heq
      rw [dlookup_accFields_notmem rest d f _ ha0, dlookup_setField_self, hg, hd, jsAdd_num]
    · have hne : f ≠ a0 := fun hEq => ha0 (hEq ▸ hrest)
      refine ih _ a hrest hndr ?_
      rw [dlookup_setField_ne g a0 f _ hne]
      exact hg

theorem dlookup_fold_part (accs : List String) (f : String)
    (hnd : accs.Nodup) (hmem : f ∈ accs) (part : List Doc) :
    ∀ (g : Doc) (a : Int), dlookup g f = vNum a →
      (∀ d ∈ part, ∃ n, dlookup d f = vNum n) →
      dlookup (part.foldl (fun g2 d => accFields accs d g2) g) f =
        vNum (a + partSum part f) := by
  induction part with
  | nil =>
    intro g a hg _
    simpa [partSum] using hg
  | cons d part ih =>
    intro g a hg hnum
    obtain ⟨n, hn⟩ := hnum d (List.mem_cons_self d part)
    have h1 : dlookup (accFields accs d g) f = vNum (a + n) :=
      dlookup_accFields_mem accs d f n hn g a hmem hnd (by rw [hg, orZero_num])
    rw [List.foldl_cons,
      ih (accFields accs d g) (a + n) h1 (fun d2 h2 => hnum d2 (List.mem_cons_of_mem d h2))]
    congr 1
    simp only [partSum, List.map_cons, List.sum_cons, hn, valNum]
    omega

/-- The `_id` of the accumulator document stored under a key is the grouping
value of the first document of that key's partition. -/
theorem group_entry_id (spec : GroupSpec) (ws : List Doc) (κ0 : String) (g : Doc)
    (first : Doc) (rest : List Doc)
    (hacc : "_id" ∉ spec.accs) (hini : "_id" ∉ spec.ini.map Prod.fst)
    (hmem : (κ0, g) ∈ ws.foldl (groupStep spec) [])
    (hF : ws.filter (fun d => keyStr spec d == κ0) = first :: rest) :
    dlookup g "_id" = dlookup first spec.keyField := by
  have hnd2 : ((ws.foldl (groupStep spec) []).map Prod.fst).Nodup := by
    rw [keys_group_fold]
    exact firstSeen_nodup _
  have hlk : aLookup (ws.foldl (groupStep spec) []) κ0 = some g :=
    aLookup_of_mem_nodup _ _ _ hnd2 hmem
  rw [group_fold_lookup, hF] at hlk
  have hx : some ((first :: rest).foldl (fun g2 d => accFields spec.accs d g2)
      (mkGroupInit (dlookup first spec.keyField) spec.ini)) = some g := hlk
  have hg : g = (first :: rest).foldl (fun g2 d => accFields spec.accs d g2)
      (mkGroupInit (dlookup first spec.keyField) spec.ini) := (Option.some.inj hx).symm
  have hfold : ∀ (part : List Doc) (g0 : Doc),
      dlookup (part.foldl (fun g2 d => accFields spec.accs d g2) g0) "_id"
        = dlookup g0 "_id" := by
    intro part
    induction part with
    | nil => intro g0; rfl
    | cons d part ih =>
      intro g0
      rw [List.foldl_cons, ih, dlookup_accFields_notmem spec.accs d "_id" g0 hacc]
  rw [hg, hfold]
  unfold mkGroupInit
  rw [dlookup_foldl_setField_notmem spec.ini _ "_id" hini]
  simp [dlookup]

/-- The string key under which an accumulator document is stored is the
string form of its `_id`. -/
theorem group_entry_idstr (spec : GroupSpec) (ws : List Doc)
    (hacc : "_id" ∉ spec.accs) (hini : "_id" ∉ spec.ini.map Prod.fst) :
    ∀ κ0 g, (κ0, g) ∈ ws.foldl (groupStep spec) [] →
      jsToString (dlookup g "_id") = κ0 := by
  intro κ0 g hmem
  cases hF : ws.filter (fun d => keyStr spec d == κ0) with
  | nil =>
    have hnd2 : ((ws.foldl (groupStep spec) []).map Prod.fst).Nodup := by
      rw [keys_group_fold]
      exact firstSeen_nodup _
    have hlk : aLookup (ws.foldl (groupStep spec) []) κ0 = some g :=
      aLookup_of_mem_nodup _ _ _ hnd2 hmem
    rw [group_fold_lookup, hF] at hlk
    cases hlk
  | cons first rest =>
    rw [group_entry_id spec ws κ0 g first rest hacc hini hmem hF]
    have hf1 : first ∈ ws.filter (fun d => keyStr spec d == κ0) := by
      rw [hF]
      exact List.mem_cons_self first rest
    have h2 := (List.mem_filter.mp hf1).2
    simpa [keyStr] using h2

/-- The emitted group documents, read through the string form of their
`_id`s, list the distinct grouping-key strings in JavaScript own-property
order. -/
theorem group_map_idstr_eq (spec : GroupSpec) (ws : List Doc)
    (hacc : "_id" ∉ spec.accs) (hini : "_id" ∉ spec.ini.map Prod.fst) :
    (groupStage spec ws).map (fun g => jsToString (dlookup g "_id"))
      = jsKeyOrder (firstSeen (ws.map (keyStr spec))) := by
  unfold groupStage objectValues
  rw [List.map_append, List.map_append, List.map_map, List.map_map]
  have hpt1 : ∀ e ∈ sortIdx ((ws.foldl (groupStep spec) []).filter
      (fun e => isArrayIndex e.1)),
      ((fun g => jsToString (dlookup g "_id")) ∘ (fun e => e.2)) e = Prod.fst e := by
    intro e he
    have hmem : e ∈ ws.foldl (groupStep spec) [] :=
      List.mem_of_mem_filter ((mem_sortIdx _ _).mp he)
    exact group_entry_idstr spec ws hacc hini e.1 e.2 hmem
  have hpt2 : ∀ e ∈ (ws.foldl (groupStep spec) []).filter
      (fun e => !isArrayIndex e.1),
      ((fun g => jsToString (dlookup g "_id")) ∘ (fun e => e.2)) e = Prod.fst e := by
    intro e he
    exact group_entry_idstr spec ws hacc hini e.1 e.2 (List.mem_of_mem_filter he)
  rw [List.map_congr_left hpt1, List.map_congr_left hpt2]
  rw [map_fst_sortIdx, map_fst_filter isArrayIndex,
    map_fst_filter (fun s => !isArrayIndex s), keys_group_fold]
  rfl

/-! ## Counting occurrences through the own-property ordering -/

theorem count_insertStr (s a : String) (l : List String) :
    (insertStr s l).count a = (s :: l).count a := by
  induction l with
  | nil => rfl
  | cons x xs ih =>
    unfold insertStr
    by_cases h : keyNum s ≤ keyNum x
    · rw [if_pos h]
    · rw [if_neg h]
      rw [List.count_cons, ih, List.count_cons, List.count_cons, List.count_cons]
      ring

theorem count_sortStr (l : List String) (a : String) :
    (sortStr l).count a = l.count a := by
  induction l with
  | nil => rfl
  | cons x xs ih =>
    show (insertStr x (sortStr xs)).count a = _
    rw [count_insertStr, List.count_cons, ih, List.count_cons]

theorem count_filter_split (p : String → Bool) (l : List String) (a : String) :
    (l.filter p).count a + (l.filter (fun x => !p x)).count a = l.count a := by
  induction l with
  | nil => rfl
  | cons x xs ih =>
    by_cases h : p x
    · rw [show List.filter p (x :: xs) = x :: List.filter p xs from by
        simp [List.filter_cons, h]]
      rw [show List.filter (fun y => !p y) (x :: xs) = List.filter (fun y => !p y) xs from by
        simp [List.filter_cons, h]]
      rw [List.count_cons, List.count_cons, ← ih]
      ring
    · rw [show List.filter p (x :: xs) = List.filter p xs from by
        simp [List.filter_cons, h]]
      rw [show List.filter (fun y => !p y) (x :: xs) = x :: List.filter (fun y => !p y) xs from by
        simp [List.filter_cons, h]]
      rw [List.count_cons, List.count_cons, ← ih]
      ring

theorem count_jsKeyOrder (l : List String) (a : String) :
    (jsKeyOrder l).count a = l.count a := by
  unfold jsKeyOrder
  rw [List.count_append, count_sortStr, count_filter_split]

/-! ## C2, C5, C10: the `$group` stage theorems -/

/-- C2, counterexample: the claim "a missing or non-numeric document field
contributes 0 to the accumulator sum" is false: grouping
`[{_id:1, g:1, f:2}, {_id:2, g:1}]` by `g` with accumulator field `f`
computes `(2 || 0) + undefined`, i.e. `NaN`, for the single group — not the
`2` that the claim's sum (0 for the missing field) demands. -/
theorem group_missing_cex :
    (groupStage ⟨"g", [], ["f"]⟩
        [[("_id", vNum 1), ("g", vNum 1), ("f", vNum 2)],
          [("_id", vNum 2), ("g", vNum 1)]]).map (fun g => dlookup g "f")
      = [vNaN] ∧ (vNaN : Value) ≠ vNum 2 := by
  decide

/-- C2, amended: for a declared accumulator field `f` (the code's key
filtering keeps accumulator fields distinct from `_id`; `initial` is assumed
not to seed `f` or `_id`), when every document of the `κ0` partition holds a
numeric value at `f`, the group document emitted *for that partition* —
identified by its `_id`, whose string form is `κ0` and whose value is the
first partition document's grouping value — carries at `f` exactly the sum
of those values; indeed every emitted document whose `_id` stringifies to
`κ0` does.  A missing or non-numeric value does not contribute 0 but
poisons the accumulator through JavaScript `+` (see the counterexample). -/
theorem group_field_sum (spec : GroupSpec) (f κ0 : String) (ws : List Doc)
    (hf : f ∈ spec.accs) (hnd : spec.accs.Nodup)
    (hini : f ∉ spec.ini.map Prod.fst)
    (hacc : "_id" ∉ spec.accs) (hinid : "_id" ∉ spec.ini.map Prod.fst)
    (hnum : ∀ d ∈ ws, keyStr spec d = κ0 → ∃ n, dlookup d f = vNum n)
    (first : Doc) (rest : List Doc)
    (hF : ws.filter (fun d => keyStr spec d == κ0) = first :: rest) :
    (∃ g ∈ groupStage spec ws,
        jsToString (dlookup g "_id") = κ0 ∧
        dlookup g "_id" = dlookup first spec.keyField ∧
        dlookup g f = vNum (partSum (first :: rest) f)) ∧
    ∀ g ∈ groupStage spec ws, jsToString (dlookup g "_id") = κ0 →
      dlookup g f = vNum (partSum (first :: rest) f) := by
  have hfid : f ≠ "_id" := fun hEq => hacc (hEq ▸ hf)
  have hlk : aLookup (ws.foldl (groupStep spec) []) κ0
      = some ((first :: rest).foldl (fun g2 d => accFields spec.accs d g2)
          (mkGroupInit (dlookup first spec.keyField) spec.ini)) := by
    rw [group_fold_lookup, hF]
    rfl
  have hmem : (κ0, (first :: rest).foldl (fun g2 d => accFields spec.accs d g2)
      (mkGroupInit (dlookup first spec.keyField) spec.ini))
      ∈ ws.foldl (groupStep spec) [] := aLookup_mem _ _ _ hlk
  have hfirst : first ∈ ws.filter (fun d => keyStr spec d == κ0) := by
    rw [hF]
    exact List.mem_cons_self first rest
  have hf2 := List.mem_filter.mp hfirst
  obtain ⟨n0, hn0⟩ := hnum first hf2.1 (by simpa using hf2.2)
  have hbase : dlookup (mkGroupInit (dlookup first spec.keyField) spec.ini) f = vUndef := by
    unfold mkGroupInit
    rw [dlookup_foldl_setField_notmem spec.ini _ f hini]
    simp [dlookup, Ne.symm hfid]
  have hstep : dlookup (accFields spec.accs first
      (mkGroupInit (dlookup first spec.keyField) spec.ini)) f = vNum (0 + n0) :=
    dlookup_accFields_mem spec.accs first f n0 hn0 _ 0 hf hnd (by rw [hbase]; rfl)
  have hrest : ∀ d ∈ rest, ∃ n, dlookup d f = vNum n := by
    intro d hd
    have hdm : d ∈ ws.filter (fun d2 => keyStr spec d2 == κ0) := by
      rw [hF]
      exact List.mem_cons_of_mem first hd
    have h2 := List.mem_filter.mp hdm
    exact hnum d h2.1 (by simpa using h2.2)
  have hval : dlookup ((first :: rest).foldl (fun g2 d => accFields spec.accs d g2)
      (mkGroupInit (dlookup first spec.keyField) spec.ini)) f
      = vNum (partSum (first :: rest) f) := by
    rw [List.foldl_cons,
      dlookup_fold_part spec.accs f hnd hf rest _ (0 + n0) hstep hrest]
    congr 1
    simp only [partSum, List.map_cons, List.sum_cons, hn0, valNum]
    omega
  have huniq : ∀ g ∈ groupStage spec ws, jsToString (dlookup g "_id") = κ0 →
      g = (first :: rest).foldl (fun g2 d => accFields spec.accs d g2)
        (mkGroupInit (dlookup first spec.keyField) spec.ini) := by
    intro g hg hstr
    obtain ⟨κ, hκ⟩ := mem_objectValues _ g hg
    have hs := group_entry_idstr spec ws hacc hinid κ g hκ
    have hκeq : κ = κ0 := hs.symm.trans hstr
    rw [hκeq] at hκ
    have hnd2 : ((ws.foldl (groupStep spec) []).map Prod.fst).Nodup := by
      rw [keys_group_fold]
      exact firstSeen_nodup _
    have hlk2 : aLookup (ws.foldl (groupStep spec) []) κ0 = some g :=
      aLookup_of_mem_nodup _ _ _ hnd2 hκ
    exact Option.some.inj (hlk2.symm.trans hlk)
  constructor
  · exact ⟨_, mem_objectValues_of_mem _ κ0 _ hmem,
      group_entry_idstr spec ws hacc hinid κ0 _ hmem,
      group_entry_id spec ws κ0 _ first rest hacc hinid hmem hF, hval⟩
  · intro g hg hstr
    rw [huniq g hg hstr]
    exact hval

/-- C2, witness for the amended theorem: grouping
`[{_id:1, g:1, f:2}, {_id:2, g:1, f:3}]` by `g` emits the `"1"`-keyed group
document, `_id = 1`, with `f` summed to 5. -/
theorem group_field_sum_witness :
    (∃ g ∈ groupStage ⟨"g", [], ["f"]⟩
        [[("_id", vNum 1), ("g", vNum 1), ("f", vNum 2)],
          [("_id", vNum 2), ("g", vNum 1), ("f", vNum 3)]],
      jsToString (dlookup g "_id") = "1" ∧
      dlookup g "_id" = dlookup [("_id", vNum 1), ("g", vNum 1), ("f", vNum 2)] "g" ∧
      dlookup g "f" = vNum (partSum
        [[("_id", vNum 1), ("g", vNum 1), ("f", vNum 2)],
          [("_id", vNum 2), ("g", vNum 1), ("f", vNum 3)]] "f")) ∧
    ∀ g ∈ groupStage ⟨"g", [], ["f"]⟩
        [[("_id", vNum 1), ("g", vNum 1), ("f", vNum 2)],
          [("_id", vNum 2), ("g", vNum 1), ("f", vNum 3)]],
      jsToString (dlookup g "_id") = "1" →
      dlookup g "f" = vNum (partSum
        [[("_id", vNum 1), ("g", vNum 1), ("f", vNum 2)],
          [("_id", vNum 2), ("g", vNum 1), ("f", vNum 3)]] "f") :=
  group_field_sum ⟨"g", [], ["f"]⟩ "f" "1" _ (by decide) (by decide) (by decide)
    (by decide) (by decide)
    (by
      intro d hd _
      rcases List.mem_cons.mp hd with rfl | hd2
      · exact ⟨2, rfl⟩
      · rcases List.mem_cons.mp hd2 with rfl | h3
        · exact ⟨3, rfl⟩
        · cases h3)
    _ _ (by decide)

/-- C5, counterexample: the claim that group documents are emitted in
first-encounter order of the grouping key is false: grouping
`[{_id:1, age:30}, {_id:2, age:25}]` by `age` emits the `25` group before
the `30` group, because `Object.values` enumerates array-index property
keys in ascending numeric order, not insertion order. -/
theorem group_order_cex :
    groupStage ⟨"age", [], []⟩
        [[("_id", vNum 1), ("age", vNum 30)], [("_id", vNum 2), ("age", vNum 25)]]
      = [[("_id", vNum 25)], [("_id", vNum 30)]] ∧
    groupStage ⟨"age", [], []⟩
        [[("_id", vNum 1), ("age", vNum 30)], [("_id", vNum 2), ("age", vNum 25)]]
      ≠ [[("_id", vNum 30)], [("_id", vNum 25)]] := by
  decide

/-- C5, amended: the group stage emits exactly one accumulator document per
distinct string form of the grouping-key value; the emission order is
JavaScript own-property order of the `grouped` object — keys that are array
indices (canonical integers in `[0, 2^32 - 2]`) first, in ascending numeric
order, then the remaining keys in first-encounter order. -/
theorem group_emit_order (spec : GroupSpec) (ws : List Doc)
    (hacc : "_id" ∉ spec.accs) (hini : "_id" ∉ spec.ini.map Prod.fst) :
    (groupStage spec ws).map (fun g => jsToString (dlookup g "_id"))
      = jsKeyOrder (firstSeen (ws.map (keyStr spec))) :=
  group_map_idstr_eq spec ws hacc hini

/-- C5, witness for the amended theorem. -/
theorem group_emit_order_witness :
    (groupStage ⟨"age", [], []⟩
        [[("_id", vNum 1), ("age", vNum 30)],
          [("_id", vNum 2), ("age", vNum 25)]]).map
      (fun g => jsToString (dlookup g "_id"))
      = jsKeyOrder (firstSeen ([[("_id", vNum 1), ("age", vNum 30)],
          [("_id", vNum 2), ("age", vNum 25)]].map (keyStr ⟨"age", [], []⟩))) :=
  group_emit_order ⟨"age", [], []⟩ _ (by decide) (by decide)

/-- C10: documents whose grouping-key values have the same string form land
in the same single group (exactly one emitted document carries that key
string), and that group's `_id` is the grouping-key value of the first such
document in the working set. -/
theorem group_string_rep (spec : GroupSpec) (ws : List Doc) (κ0 : String)
    (first : Doc) (rest : List Doc)
    (hacc : "_id" ∉ spec.accs) (hini : "_id" ∉ spec.ini.map Prod.fst)
    (hF : ws.filter (fun d => keyStr spec d == κ0) = first :: rest) :
    ((groupStage spec ws).map (fun g => jsToString (dlookup g "_id"))).count κ0 = 1 ∧
    ∀ g ∈ groupStage spec ws, jsToString (dlookup g "_id") = κ0 →
      dlookup g "_id" = dlookup first spec.keyField := by
  constructor
  · rw [group_map_idstr_eq spec ws hacc hini, count_jsKeyOrder]
    have hκmem : κ0 ∈ firstSeen (ws.map (keyStr spec)) := by
      rw [mem_firstSeen]
      have hfirst : first ∈ ws.filter (fun d => keyStr spec d == κ0) := by
        rw [hF]
        exact List.mem_cons_self first rest
      have h2 := List.mem_filter.mp hfirst
      exact List.mem_map.mpr ⟨first, h2.1, by simpa using h2.2⟩
    exact List.count_eq_one_of_mem (firstSeen_nodup _) hκmem
  · intro g hg hstr
    obtain ⟨κ, hκ⟩ := mem_objectValues _ g hg
    have hs := group_entry_idstr spec ws hacc hini κ g hκ
    have hκeq : κ = κ0 := hs.symm.trans hstr
    rw [hκeq] at hκ
    exact group_entry_id spec ws κ0 g first rest hacc hini hκ hF

/-- C10, witness: the number `1` and the string `"1"` fall into one group
whose `_id` is the number `1`, the first encountered value. -/
theorem group_string_rep_witness :
    ((groupStage ⟨"g", [], []⟩
        [[("_id", vNum 1), ("g", vNum 1)], [("_id", vNum 2), ("g", vStr "1")]]).map
      (fun g => jsToString (dlookup g "_id"))).count "1" = 1 ∧
    ∀ g ∈ groupStage ⟨"g", [], []⟩
        [[("_id", vNum 1), ("g", vNum 1)], [("_id", vNum 2), ("g", vStr "1")]],
      jsToString (dlookup g "_id") = "1" →
      dlookup g "_id" = dlookup [("_id", vNum 1), ("g", vNum 1)] "g" :=
  group_string_rep ⟨"g", [], []⟩ _ "1" [("_id", vNum 1), ("g", vNum 1)]
    [[("_id", vNum 2), ("g", vStr "1")]] (by decide) (by decide) (by decide)

end Bolt
